import Mathlib

/-!
A shallow embedding in Lean 4 of the layout/navigation engine of the
`dig` terminal git-history viewer (`main.go`), together with theorems
settling the specification's claims about it.

Conventions of the embedding:
* Go `int` is modelled as `Int`; slice indices that Go would use to
  slice (`commits[from:]`) are modelled as `Nat` where the surrounding
  code guarantees non-negativity.
* Go strings are Lean `String`s; `[]byte` text lines are `List Char`
  (a decoded, valid-UTF-8 byte sequence).
* `[][]byte` text bodies are `List (List Char)`.
* Terminal-drawing side effects (`termbox.SetCell`) are modelled as the
  list of cells that would be written.
-/

/-- `Pt` is a point (`main.go`): `L` is the line, `O` the column. -/
structure Pt where
  L : Int
  O : Int
deriving DecidableEq, Repr

/-- `Pt.Add` adds two points componentwise (`main.go`). -/
def Pt.Add (p q : Pt) : Pt := ⟨p.L + q.L, p.O + q.O⟩

/-- `Rect` is a rectangle (`main.go`): origin `Min` and extent `Size`. -/
structure Rect where
  Min : Pt
  Size : Pt
deriving DecidableEq, Repr

/-- `Commit` is a git commit (`main.go`): a stable hash and a one-line title. -/
structure Commit where
  Hash : String
  Title : String
deriving DecidableEq, Repr

/-- Helper for `strContains`: does `w` occur (as a contiguous run) in `s`?
Scans every suffix of `s` for `w` as a prefix, exactly the semantics of
Go `strings.Contains`. -/
def containsAux (w : List Char) : List Char → Bool
  | [] => w.isEmpty
  | s@(_ :: rest) => w.isPrefixOf s || containsAux w rest

/-- Models Go `strings.Contains(s, w)`: substring containment on the
decoded character sequences. -/
def strContains (s w : String) : Bool :=
  containsAux w.data s.data

/-- `nextIdx` (`main.go`): the next index after `i` in `commits`,
wrapping to 0 when `i` is the last index. Arithmetic is over `Int`
exactly as Go does it (`i == len(commits)-1`). -/
def nextIdx (commits : List Commit) (i : Int) : Int :=
  if i = (commits.length : Int) - 1 then 0 else i + 1

/-- The `for i, c := range slice` search loop shared by `findByHash` and
`findByWord` (`main.go`): first position at which `p` holds, with the
running position starting at `i`. -/
def findLoop (p : Commit → Bool) : List Commit → Nat → Option Nat
  | [], _ => none
  | c :: rest, i => if p c then some i else findLoop p rest (i + 1)

/-- `findByHash` (`main.go`): finds a commit whose `Hash` equals `hash`,
scanning `commits[from:]` then `commits[:from]`; `-1` when absent. -/
def findByHash (commits : List Commit) (hash : String) (fro : Nat) : Int :=
  match findLoop (fun c => c.Hash == hash) (commits.drop fro) 0 with
  | some i => ((fro + i : Nat) : Int)
  | none =>
    match findLoop (fun c => c.Hash == hash) (commits.take fro) 0 with
    | some i => (i : Int)
    | none => -1

/-- `findByWord` (`main.go`): finds a commit whose `Title` contains
`word`, scanning `commits[from:]` then `commits[:from]`; `-1` when
absent. -/
def findByWord (commits : List Commit) (word : String) (fro : Nat) : Int :=
  match findLoop (fun c => strContains c.Title word) (commits.drop fro) 0 with
  | some i => ((fro + i : Nat) : Int)
  | none =>
    match findLoop (fun c => strContains c.Title word) (commits.take fro) 0 with
    | some i => (i : Int)
    | none => -1

/-- The `KeyEnter` branch of `handleFind` (`main.go`): compute the
wrapped start index, apply the hash-match result if found, then the
word-match result if found; returns the new `CurIdx`. -/
def handleFindEnter (commits : List Commit) (cur : Int) (findString : String) : Int :=
  let fro := (nextIdx commits cur).toNat
  let c1 := if findByHash commits findString fro ≠ -1
    then findByHash commits findString fro else cur
  if findByWord commits findString fro ≠ -1
    then findByWord commits findString fro else c1

/-- `Window` (`main.go`): a scrolling cursor over a text body.
`Bound.Min` is the scroll origin, `Bound.Size` the viewport size,
`Text` the current text body (lines of decoded bytes). -/
structure Window where
  Bound : Rect
  Text : List (List Char)
deriving Repr

/-- `Window.Reset` (`main.go`): replace the text and zero the origin. -/
def Window.Reset (w : Window) (t : List (List Char)) : Window :=
  { w with Text := t, Bound := { w.Bound with Min := ⟨0, 0⟩ } }

/-- `Window.MoveUp` (`main.go`): move the origin up by `n` lines,
clamping at 0. -/
def Window.MoveUp (w : Window) (n : Int) : Window :=
  let L := w.Bound.Min.L - n
  let L := if L < 0 then 0 else L
  { w with Bound := { w.Bound with Min := { w.Bound.Min with L := L } } }

/-- `Window.MoveDown` (`main.go`): move the origin down by `n` lines,
clamping at `len(Text) - 1`. -/
def Window.MoveDown (w : Window) (n : Int) : Window :=
  let L := w.Bound.Min.L + n
  let L := if L ≥ (w.Text.length : Int) then (w.Text.length : Int) - 1 else L
  { w with Bound := { w.Bound with Min := { w.Bound.Min with L := L } } }

/-- `Window.MoveLeft` (`main.go`): move the origin left by `n` columns,
clamping at 0. -/
def Window.MoveLeft (w : Window) (n : Int) : Window :=
  let O := w.Bound.Min.O - n
  let O := if O < 0 then 0 else O
  { w with Bound := { w.Bound with Min := { w.Bound.Min with O := O } } }

/-- `Window.MoveRight` (`main.go`): move the origin right by `n`
columns; unclamped. -/
def Window.MoveRight (w : Window) (n : Int) : Window :=
  { w with Bound := { w.Bound with Min := { w.Bound.Min with O := w.Bound.Min.O + n } } }

/-- `Window.PageForward` (`main.go`): `MoveDown` by the viewport height. -/
def Window.PageForward (w : Window) : Window :=
  w.MoveDown w.Bound.Size.L

/-- `Window.PageBackward` (`main.go`): `MoveUp` by the viewport height. -/
def Window.PageBackward (w : Window) : Window :=
  w.MoveUp w.Bound.Size.L

/-- `Window.HalfPageForward` (`main.go`): `MoveDown` by half the
viewport height (Go integer division truncates toward zero). -/
def Window.HalfPageForward (w : Window) : Window :=
  w.MoveDown (Int.tdiv w.Bound.Size.L 2)

/-- `Window.HalfPageBackward` (`main.go`): `MoveUp` by half the
viewport height. -/
def Window.HalfPageBackward (w : Window) : Window :=
  w.MoveUp (Int.tdiv w.Bound.Size.L 2)

/-- One Window operation, as dispatched by `DiffArea.Handle`
(`main.go`). Explicit move distances are `Nat`: the program only ever
passes the non-negative literals 1 and 4. -/
inductive WinOp where
  | reset (t : List (List Char))
  | moveUp (n : Nat)
  | moveDown (n : Nat)
  | moveLeft (n : Nat)
  | moveRight (n : Nat)
  | pageForward
  | pageBackward
  | halfPageForward
  | halfPageBackward
deriving Repr

/-- Apply one `WinOp` to a `Window`. -/
def Window.applyOp (w : Window) : WinOp → Window
  | .reset t => w.Reset t
  | .moveUp n => w.MoveUp n
  | .moveDown n => w.MoveDown n
  | .moveLeft n => w.MoveLeft n
  | .moveRight n => w.MoveRight n
  | .pageForward => w.PageForward
  | .pageBackward => w.PageBackward
  | .halfPageForward => w.HalfPageForward
  | .halfPageBackward => w.HalfPageBackward

/-- An op is benign when any text it installs is non-empty. -/
def WinOp.resetNonempty : WinOp → Prop
  | .reset t => t ≠ []
  | _ => True

instance : DecidablePred WinOp.resetNonempty := by
  intro op; cases op <;> simp [WinOp.resetNonempty] <;> infer_instance

/-- The scroll-origin invariant claimed for `Window`: line within
`[0, len(text)-1]` and column non-negative. -/
def winInv (w : Window) : Prop :=
  0 ≤ w.Bound.Min.L ∧ w.Bound.Min.L ≤ (w.Text.length : Int) - 1 ∧ 0 ≤ w.Bound.Min.O

instance : DecidablePred winInv := by
  intro w; unfold winInv; infer_instance

/-- `CommitArea` (`main.go`): the commit-list browser. The Go struct
also declares a `Commits` field, but the code reads the global
`dig.Commits` instead; the list is passed as a parameter here. -/
structure CommitArea where
  Bound : Rect
  CurIdx : Int
  TopIdx : Int
deriving Repr

/-- One selection-movement event accepted by `CommitArea.Handle`
(`main.go`). -/
inductive ListEv where
  | up
  | down
  | pgUp
  | pgDn
  | halfUp
  | halfDn
  | home
  | jumpEnd
deriving Repr, DecidableEq

/-- The raw `CurIdx` update of `CommitArea.Handle` (`main.go`), before
validation. Page moves use the viewport height `Bound.Size.L`. -/
def CommitArea.rawCur (a : CommitArea) (commits : List Commit) : ListEv → Int
  | .up => a.CurIdx - 1
  | .down => a.CurIdx + 1
  | .pgUp => a.CurIdx - a.Bound.Size.L
  | .pgDn => a.CurIdx + a.Bound.Size.L
  | .halfUp => a.CurIdx - Int.tdiv a.Bound.Size.L 2
  | .halfDn => a.CurIdx + Int.tdiv a.Bound.Size.L 2
  | .home => 0
  | .jumpEnd => (commits.length : Int) - 1

/-- The validation step of `CommitArea.Handle` (`main.go`): clamp below
at 0, then above at `len(commits) - 1`, in that order. -/
def clampCur (commits : List Commit) (x : Int) : Int :=
  let x := if x < 0 then 0 else x
  if x ≥ (commits.length : Int) then (commits.length : Int) - 1 else x

/-- `CommitArea.Handle` (`main.go`) restricted to the movement events:
update `CurIdx` then validate. -/
def CommitArea.handle (a : CommitArea) (commits : List Commit) (ev : ListEv) : CommitArea :=
  { a with CurIdx := clampCur commits (a.rawCur commits ev) }

/-- The `TopIdx` recomputation at the top of `CommitArea.Draw`
(`main.go`): minimal scroll keeping the selection visible. -/
def CommitArea.drawTop (a : CommitArea) : CommitArea :=
  if a.TopIdx > a.CurIdx then { a with TopIdx := a.CurIdx }
  else if a.TopIdx + a.Bound.Size.L ≤ a.CurIdx then
    { a with TopIdx := a.CurIdx - a.Bound.Size.L + 1 }
  else a

/-- One full selection step as the claim describes it: index update,
clamping, then top-index recomputation. -/
def CommitArea.step (commits : List Commit) (a : CommitArea) (ev : ListEv) : CommitArea :=
  (a.handle commits ev).drawTop

/-- The List Area invariant: `0 ≤ TopIdx ≤ CurIdx ≤ TopIdx + h - 1`. -/
def listInv (a : CommitArea) : Prop :=
  0 ≤ a.TopIdx ∧ a.TopIdx ≤ a.CurIdx ∧ a.CurIdx ≤ a.TopIdx + a.Bound.Size.L - 1

instance : DecidablePred listInv := by
  intro a; unfold listInv; infer_instance

/-- `StatusArea` (`main.go`). -/
structure StatusArea where
  Bound : Rect
deriving Repr

/-- `DiffArea` (`main.go`), geometry-relevant fields. -/
structure DiffArea where
  Bound : Rect
  Win : Window
deriving Repr

/-- `Screen` (`main.go`): the screen composer. -/
structure Screen where
  size : Pt
  SideWidth : Int
  Commit : CommitArea
  Diff : DiffArea
  Status : StatusArea
deriving Repr

/-- `Screen.Resize` (`main.go`): recompute the sub-area rectangles.
`CommitArea` and `DiffArea` share one rectangle starting at column
`SideWidth` and taking the remaining width; the status line takes the
last row. No clamping is performed anywhere. -/
def Screen.Resize (s : Screen) (size : Pt) : Screen :=
  let mainArea : Rect := ⟨⟨0, s.SideWidth⟩, ⟨size.L - 1, size.O - s.SideWidth⟩⟩
  { s with
    size := size
    Commit := { s.Commit with Bound := mainArea }
    Diff := { s.Diff with
      Bound := mainArea
      Win := { s.Diff.Win with Bound := { s.Diff.Win.Bound with Size := mainArea.Size } } }
    Status := { s.Status with Bound := ⟨⟨size.L - 1, 0⟩, ⟨1, size.O⟩⟩ } }

/-- Modelled from the external `go-runewidth` dependency's
`RuneWidth`: display width of a code point — 0 for control and
zero-width characters, 2 for East Asian wide/fullwidth ranges, 1
otherwise. Only a coarse table: the claims need only that some
characters (all of ASCII printable, in particular) have width 1. -/
def runeWidth (c : Char) : Nat :=
  let n := c.toNat
  if n < 32 ∨ (n ≥ 0x7f ∧ n < 0xa0) then 0
  else if n = 0x200b ∨ (n ≥ 0x300 ∧ n ≤ 0x36f) then 0
  else if (n ≥ 0x1100 ∧ n ≤ 0x115f) ∨ (n ≥ 0x2e80 ∧ n ≤ 0xa4cf) ∨
      (n ≥ 0xac00 ∧ n ≤ 0xd7a3) ∨ (n ≥ 0xf900 ∧ n ≤ 0xfaff) ∨
      (n ≥ 0xfe30 ∧ n ≤ 0xfe4f) ∨ (n ≥ 0xff00 ∧ n ≤ 0xff60) ∨
      (n ≥ 0xffe0 ∧ n ≤ 0xffe6) ∨ (n ≥ 0x20000 ∧ n ≤ 0x3fffd) then 2
  else 1

/-- The per-line rendering loop of `DiffArea.Draw` (`main.go`): starting
at running column `o` (which is `-Win.Bound.Min.O`, possibly negative),
decode one code point at a time; stop when the input is exhausted or
the column reaches the viewport width; draw the code point when its
column is ≥ 0; always advance the column by the code point's display
width. Returns the (column, code point) cells written. -/
def drawLineLoop (width : Int) (o : Int) : List Char → List (Int × Char)
  | [] => []
  | r :: rest =>
    if o ≥ width then []
    else
      (if 0 ≤ o then [(o, r)] else []) ++ drawLineLoop width (o + (runeWidth r : Int)) rest

/-- Models Go `utf8.DecodeLastRuneInString`'s returned size: 0 on the
empty string, else the UTF-8 byte length of the last code point (the
decoded strings of this embedding are valid UTF-8). -/
def decodeLastRuneSize (s : String) : Nat :=
  match s.data.getLast? with
  | none => 0
  | some c => c.utf8Size

/-- UTF-8 byte length of a string, modelling Go `len(s)`. -/
def byteLen (s : String) : Nat :=
  s.data.foldl (fun n c => n + c.utf8Size) 0

/-- Models the Go slice `s[:n]` for a byte count `n` on a rune
boundary: keep leading code points while their bytes fit in `n`. -/
def takePrefixBytes (n : Nat) : List Char → List Char
  | [] => []
  | c :: rest => if c.utf8Size ≤ n then c :: takePrefixBytes (n - c.utf8Size) rest else []

/-- The `KeyBackspace` branch of `handleFind` (`main.go`):
`dig.FindString = dig.FindString[:len(dig.FindString)-size]` where
`size` is the byte size of the last rune (0 for the empty string). -/
def handleFindBackspace (s : String) : String :=
  ⟨takePrefixBytes (byteLen s - decodeLastRuneSize s) s.data⟩

/-- Does the predicate hold of the commit at index `i` of `L`? -/
def pAt (L : List Commit) (p : Commit → Bool) (i : Nat) : Bool :=
  match L[i]? with
  | some c => p c
  | none => false

/-- First index in the given index order at which the predicate holds of
the corresponding commit, or `-1`. -/
def firstIdxIn (p : Commit → Bool) (L : List Commit) : List Nat → Int
  | [] => -1
  | j :: rest => if pAt L p j then (j : Int) else firstIdxIn p L rest

/-- The find function as the specification words it: the first index in
the circular order `list[fromIndex:]`, then `list[:fromIndex]`, whose
element satisfies the predicate, or not-found (`-1`). Stated over the
explicit circular index sequence; compared against `findByHash` and
`findByWord` as translated from the source. -/
def specCircFind (p : Commit → Bool) (L : List Commit) (fro : Nat) : Int :=
  firstIdxIn p L (List.range' fro (L.length - fro) ++ List.range fro)

/-- Package a search-loop result with the base index the way
`findByHash`/`findByWord` do: `from + i` on a hit, `-1` on a miss. -/
def loopIdx (o : Option Nat) (j : Nat) : Int :=
  match o with
  | some i => ((j + i : Nat) : Int)
  | none => -1

/-- The running position of `findLoop` is a pure offset. -/
theorem findLoop_shift (p : Commit → Bool) (l : List Commit) (i : Nat) :
    findLoop p l i = (findLoop p l 0).map (fun k => k + i) := by
  induction l generalizing i with
  | nil => simp [findLoop]
  | cons c rest ih =>
    by_cases h : p c
    · simp [findLoop, h]
    · simp only [findLoop, h, if_false, Bool.false_eq_true]
      rw [ih (i + 1), ih 1, Option.map_map]
      congr 1
      funext k
      simp
      omega

/-- `findLoop` misses exactly when no element satisfies the predicate. -/
theorem findLoop_none_iff (p : Commit → Bool) (l : List Commit) (i : Nat) :
    findLoop p l i = none ↔ ∀ c ∈ l, p c = false := by
  induction l generalizing i with
  | nil => simp [findLoop]
  | cons c rest ih =>
    by_cases h : p c
    · simp [findLoop, h]
    · simp only [findLoop, h, if_false, Bool.false_eq_true, List.mem_cons]
      rw [ih (i + 1)]
      constructor
      · rintro ha d (rfl | hd)
        · simpa using h
        · exact ha d hd
      · intro ha d hd
        exact ha d (Or.inr hd)

/-- Scanning the index range `[j, j+k)` over `L` agrees with running the
source's search loop on the corresponding slice of `L`. -/
theorem firstIdxIn_range' (p : Commit → Bool) (L : List Commit) :
    ∀ (k j : Nat), j + k ≤ L.length →
      firstIdxIn p L (List.range' j k) =
        loopIdx (findLoop p ((L.take (j + k)).drop j) 0) j := by
  intro k
  induction k with
  | zero =>
    intro j hj
    have hd : (L.take j).drop j = [] := by
      apply List.drop_eq_nil_of_le
      simp
    simp [List.range', firstIdxIn, hd, findLoop, loopIdx]
  | succ k ih =>
    intro j hj
    have hjlen : j < L.length := by omega
    have hjt : j < (L.take (j + (k + 1))).length := by
      simp [List.length_take]
      omega
    have hcons : (L.take (j + (k + 1))).drop j =
        (L.take (j + (k + 1)))[j] :: (L.take (j + (k + 1))).drop (j + 1) :=
      List.drop_eq_getElem_cons hjt
    have hget : (L.take (j + (k + 1)))[j] = L[j] := by
      simp [List.getElem_take]
    have hpat : pAt L p j = p (L[j]) := by
      simp [pAt, List.getElem?_eq_getElem hjlen]
    rw [List.range'_succ]
    by_cases h : p (L[j])
    · simp only [firstIdxIn, hpat, h, if_true]
      rw [hcons, hget]
      simp [findLoop, h, loopIdx]
    · simp only [firstIdxIn, hpat, h, if_false, Bool.false_eq_true]
      have harg : j + 1 + k = j + (k + 1) := by omega
      have := ih (j + 1) (by omega)
      rw [harg] at this
      rw [this, hcons, hget]
      simp only [findLoop, h, if_false, Bool.false_eq_true]
      rw [findLoop_shift p ((L.take (j + (k + 1))).drop (j + 1)) 1]
      cases findLoop p ((L.take (j + (k + 1))).drop (j + 1)) 0 with
      | none => simp [loopIdx]
      | some i =>
        simp only [Option.map_some', loopIdx]
        congr 1
        omega

/-- `findByHash` is the generic drop/take scan at the hash predicate. -/
theorem findByHash_eq_loop (commits : List Commit) (s : String) (fro : Nat) :
    findByHash commits s fro =
      (match findLoop (fun c => c.Hash == s) (commits.drop fro) 0 with
      | some i => ((fro + i : Nat) : Int)
      | none => loopIdx (findLoop (fun c => c.Hash == s) (commits.take fro) 0) 0) := by
  unfold findByHash
  cases findLoop (fun c => c.Hash == s) (commits.drop fro) 0 with
  | none =>
    cases findLoop (fun c => c.Hash == s) (commits.take fro) 0 with
    | none => simp [loopIdx]
    | some i => simp [loopIdx]
  | some i => simp

/-- `findByWord` is the generic drop/take scan at the title predicate. -/
theorem findByWord_eq_loop (commits : List Commit) (s : String) (fro : Nat) :
    findByWord commits s fro =
      (match findLoop (fun c => strContains c.Title s) (commits.drop fro) 0 with
      | some i => ((fro + i : Nat) : Int)
      | none => loopIdx (findLoop (fun c => strContains c.Title s) (commits.take fro) 0) 0) := by
  unfold findByWord
  cases findLoop (fun c => strContains c.Title s) (commits.drop fro) 0 with
  | none =>
    cases findLoop (fun c => strContains c.Title s) (commits.take fro) 0 with
    | none => simp [loopIdx]
    | some i => simp [loopIdx]
  | some i => simp

/-- The drop/take two-phase scan of the source equals the circular
index scan of the specification. -/
theorem dropTakeScan_eq_specCircFind (p : Commit → Bool) (L : List Commit) (fro : Nat)
    (hfro : fro ≤ L.length) :
    (match findLoop p (L.drop fro) 0 with
      | some i => ((fro + i : Nat) : Int)
      | none => loopIdx (findLoop p (L.take fro) 0) 0) =
      specCircFind p L fro := by
  unfold specCircFind
  have h1 : firstIdxIn p L (List.range' fro (L.length - fro)) =
      loopIdx (findLoop p (L.drop fro) 0) fro := by
    have := firstIdxIn_range' p L (L.length - fro) fro (by omega)
    rwa [show fro + (L.length - fro) = L.length by omega, List.take_length] at this
  have h2 : firstIdxIn p L (List.range fro) =
      loopIdx (findLoop p (L.take fro) 0) 0 := by
    have h := firstIdxIn_range' p L fro 0 (by omega)
    simp only [Nat.zero_add, List.drop_zero, ← List.range_eq_range'] at h
    exact h
  have happ : ∀ (xs ys : List Nat), firstIdxIn p L (xs ++ ys) =
      (match firstIdxIn p L xs with
        | (-1 : Int) => firstIdxIn p L ys
        | r => r) := by
    intro xs ys
    induction xs with
    | nil => simp [firstIdxIn]
    | cons j rest ihx =>
      by_cases h : pAt L p j
      · simp [firstIdxIn, h]
      · simp [firstIdxIn, h, ihx]
  rw [happ, h1, h2]
  cases hl : findLoop p (L.drop fro) 0 with
  | none => simp [loopIdx]
  | some i =>
    simp only [loopIdx]
    have : ((fro + i : Nat) : Int) ≠ -1 := by omega
    split
    · omega
    · rfl

/-- A search loop applied to the two halves misses exactly when no
element of the whole list satisfies the predicate. -/
theorem find_minus_one_iff (p : Commit → Bool) (L : List Commit) (fro : Nat) :
    (match findLoop p (L.drop fro) 0 with
      | some i => ((fro + i : Nat) : Int)
      | none => loopIdx (findLoop p (L.take fro) 0) 0) = -1 ↔
      ∀ c ∈ L, p c = false := by
  constructor
  · intro h
    cases hd : findLoop p (L.drop fro) 0 with
    | some i =>
      exfalso
      rw [hd] at h
      have hne : ((fro + i : Nat) : Int) ≠ -1 := by omega
      exact hne h
    | none =>
      rw [hd] at h
      cases ht : findLoop p (L.take fro) 0 with
      | some i =>
        exfalso
        rw [ht] at h
        simp only [loopIdx] at h
        have hne : ((0 + i : Nat) : Int) ≠ -1 := by omega
        exact hne h
      | none =>
        intro c hc
        rw [← List.take_append_drop fro L, List.mem_append] at hc
        rcases hc with hc | hc
        · exact (findLoop_none_iff p (L.take fro) 0).mp ht c hc
        · exact (findLoop_none_iff p (L.drop fro) 0).mp hd c hc
  · intro h
    have hd : findLoop p (L.drop fro) 0 = none :=
      (findLoop_none_iff p (L.drop fro) 0).mpr
        (fun c hc => h c (List.mem_of_mem_drop hc))
    have ht : findLoop p (L.take fro) 0 = none :=
      (findLoop_none_iff p (L.take fro) 0).mpr
        (fun c hc => h c (List.mem_of_mem_take hc))
    rw [hd, ht]
    simp [loopIdx]

/-- The four-commit list of the specification's worked find example. -/
def demoCommits : List Commit :=
  [⟨"h0", "xabc"⟩, ⟨"h1", "no"⟩, ⟨"h2", "abcx"⟩, ⟨"h3", "zz"⟩]

/-- C1: the circular title-substring find, started from (the index
after) selection index 2 over the titles `["xabc","no","abcx","zz"]`
with search string `"abc"`, returns index 0 (wrapping around), not
index 2. -/
theorem findByWord_wraps_demo :
    findByWord demoCommits "abc" (nextIdx demoCommits 2).toNat = 0 ∧
    findByWord demoCommits "abc" (nextIdx demoCommits 2).toNat ≠ 2 := by
  decide

/-- C5: for every commit list, both predicates (exact hash match,
title-substring containment) and every start index in range, the find
functions return the first index in the circular order
`list[fromIndex:]`, then `list[:fromIndex]`, whose element satisfies
the predicate, and return `-1` exactly when no element satisfies it;
and the wrapped start index `nextIdx` equals `(i + 1) mod len`. -/
theorem find_circular_characterization (commits : List Commit) (s : String)
    (fro : Nat) (i : Int) (hfro : fro < commits.length)
    (hi0 : 0 ≤ i) (hilen : i < (commits.length : Int)) :
    findByHash commits s fro = specCircFind (fun c => c.Hash == s) commits fro ∧
    findByWord commits s fro = specCircFind (fun c => strContains c.Title s) commits fro ∧
    (findByHash commits s fro = -1 ↔ ∀ c ∈ commits, (c.Hash == s) = false) ∧
    (findByWord commits s fro = -1 ↔ ∀ c ∈ commits, strContains c.Title s = false) ∧
    nextIdx commits i = (i + 1) % (commits.length : Int) := by
  refine ⟨?_, ?_, ?_, ?_, ?_⟩
  · rw [findByHash_eq_loop]
    exact dropTakeScan_eq_specCircFind _ _ _ (le_of_lt hfro)
  · rw [findByWord_eq_loop]
    exact dropTakeScan_eq_specCircFind _ _ _ (le_of_lt hfro)
  · rw [findByHash_eq_loop]
    exact find_minus_one_iff _ _ _
  · rw [findByWord_eq_loop]
    exact find_minus_one_iff _ _ _
  · unfold nextIdx
    split
    · next h =>
      have : i + 1 = (commits.length : Int) := by omega
      rw [this, Int.emod_self]
    · next h =>
      have h1 : i + 1 < (commits.length : Int) := by omega
      rw [Int.emod_eq_of_lt (by omega) h1]

/-- Witness for C5 at the demo list, start index 1, selection 2. -/
theorem find_circular_characterization_witness :
    (1 < demoCommits.length ∧ (0 : Int) ≤ 2 ∧ (2 : Int) < (demoCommits.length : Int)) ∧
    (findByHash demoCommits "abc" 1 = specCircFind (fun c => c.Hash == "abc") demoCommits 1 ∧
     findByWord demoCommits "abc" 1 =
       specCircFind (fun c => strContains c.Title "abc") demoCommits 1 ∧
     (findByHash demoCommits "abc" 1 = -1 ↔ ∀ c ∈ demoCommits, (c.Hash == "abc") = false) ∧
     (findByWord demoCommits "abc" 1 = -1 ↔
       ∀ c ∈ demoCommits, strContains c.Title "abc" = false) ∧
     nextIdx demoCommits 2 = (2 + 1) % (demoCommits.length : Int)) :=
  ⟨⟨by decide, by decide, by decide⟩,
    find_circular_characterization demoCommits "abc" 1 2 (by decide) (by decide) (by decide)⟩

/-- C6: when a find is confirmed and both the exact-hash search and the
title-substring search succeed from the same start index, the new
selection index is the title-substring match's index (the hash result
is applied first, then overwritten). -/
theorem handleFind_word_overrides_hash (commits : List Commit) (cur : Int) (s : String)
    (_hh : findByHash commits s (nextIdx commits cur).toNat ≠ -1)
    (hw : findByWord commits s (nextIdx commits cur).toNat ≠ -1) :
    handleFindEnter commits cur s = findByWord commits s (nextIdx commits cur).toNat := by
  unfold handleFindEnter
  simp [hw]

/-- Witness for C6: hash of commit 1 and title of commit 0 both match
`"b"`; the word match (index 0) wins. -/
theorem handleFind_word_overrides_hash_witness :
    (findByHash [⟨"h0", "abc"⟩, ⟨"b", "zzz"⟩] "b" (nextIdx [⟨"h0", "abc"⟩, ⟨"b", "zzz"⟩] 1).toNat ≠ -1 ∧
     findByWord [⟨"h0", "abc"⟩, ⟨"b", "zzz"⟩] "b" (nextIdx [⟨"h0", "abc"⟩, ⟨"b", "zzz"⟩] 1).toNat ≠ -1) ∧
    handleFindEnter [⟨"h0", "abc"⟩, ⟨"b", "zzz"⟩] 1 "b" =
      findByWord [⟨"h0", "abc"⟩, ⟨"b", "zzz"⟩] "b" (nextIdx [⟨"h0", "abc"⟩, ⟨"b", "zzz"⟩] 1).toNat :=
  ⟨⟨by decide, by decide⟩,
    handleFind_word_overrides_hash [⟨"h0", "abc"⟩, ⟨"b", "zzz"⟩] 1 "b" (by decide) (by decide)⟩

/-- C9: when a find is confirmed and neither search finds a match, the
selection index is left unchanged. -/
theorem handleFind_no_match_frame (commits : List Commit) (cur : Int) (s : String)
    (hh : findByHash commits s (nextIdx commits cur).toNat = -1)
    (hw : findByWord commits s (nextIdx commits cur).toNat = -1) :
    handleFindEnter commits cur s = cur := by
  unfold handleFindEnter
  simp [hh, hw]

/-- Witness for C9: `"qqq"` matches no hash and no title of the demo
list; the selection stays at 0. -/
theorem handleFind_no_match_frame_witness :
    (findByHash demoCommits "qqq" (nextIdx demoCommits 0).toNat = -1 ∧
     findByWord demoCommits "qqq" (nextIdx demoCommits 0).toNat = -1) ∧
    handleFindEnter demoCommits 0 "qqq" = 0 :=
  ⟨⟨by decide, by decide⟩,
    handleFind_no_match_frame demoCommits 0 "qqq" (by decide) (by decide)⟩

/-- C10: deleting the last character of an empty search string leaves
it empty and stays in bounds: the last-rune decode of the empty string
yields size 0, and the slice upper bound `len - size` is within the
string. -/
theorem backspace_empty_findString :
    handleFindBackspace "" = "" ∧ decodeLastRuneSize "" = 0 ∧
    decodeLastRuneSize "" ≤ byteLen "" := by
  refine ⟨?_, by decide, by decide⟩
  rfl

/-- `NewScreen` (`main.go`): build a screen with zero-valued sub-areas
and immediately `Resize` it. -/
def NewScreen (size : Pt) (sideWidth : Int) : Screen :=
  (Screen.mk size sideWidth
    ⟨⟨⟨0, 0⟩, ⟨0, 0⟩⟩, 0, 0⟩
    ⟨⟨⟨0, 0⟩, ⟨0, 0⟩⟩, ⟨⟨⟨0, 0⟩, ⟨0, 0⟩⟩, []⟩⟩
    ⟨⟨⟨0, 0⟩, ⟨0, 0⟩⟩⟩).Resize size

/-- Counterexample to C2 as stated: resizing a screen with configured
side width 20 to total width 5 gives the main rectangle width `-15`,
negative rather than zero; nothing is clamped. -/
theorem screen_resize_negative_width_counterexample :
    ((NewScreen ⟨24, 80⟩ 20).Resize ⟨10, 5⟩).Commit.Bound.Size.O = -15 ∧
    ¬(((NewScreen ⟨24, 80⟩ 20).Resize ⟨10, 5⟩).Commit.Bound.Size.O = 0 ∧
      0 ≤ ((NewScreen ⟨24, 80⟩ 20).Resize ⟨10, 5⟩).Commit.Bound.Size.O) := by
  decide

/-- C2 amended: for every terminal size whose total width is strictly
smaller than the configured side width, `Screen.Resize` gives the main
(Commit/Diff) rectangle width exactly `size.O - SideWidth`, which is
strictly negative; no clamping to zero occurs (and the code builds no
separate side rectangle at all — the main area merely starts at column
`SideWidth`). -/
theorem screen_resize_main_width_unclamped (s : Screen) (size : Pt)
    (h : size.O < s.SideWidth) :
    (s.Resize size).Commit.Bound.Size.O = size.O - s.SideWidth ∧
    (s.Resize size).Diff.Bound.Size.O = size.O - s.SideWidth ∧
    (s.Resize size).Commit.Bound.Size.O < 0 := by
  refine ⟨rfl, rfl, ?_⟩
  show size.O - s.SideWidth < 0
  omega

/-- Witness for C2's amended statement at side width 20, total width 5. -/
theorem screen_resize_main_width_unclamped_witness :
    ((5 : Int) < 20) ∧
    (((NewScreen ⟨24, 80⟩ 20).Resize ⟨10, 5⟩).Commit.Bound.Size.O = 5 - 20 ∧
     ((NewScreen ⟨24, 80⟩ 20).Resize ⟨10, 5⟩).Diff.Bound.Size.O = 5 - 20 ∧
     ((NewScreen ⟨24, 80⟩ 20).Resize ⟨10, 5⟩).Commit.Bound.Size.O < 0) :=
  ⟨by decide, screen_resize_main_width_unclamped (NewScreen ⟨24, 80⟩ 20) ⟨10, 5⟩ (by decide)⟩

/-- Applying any Window operation leaves the viewport size unchanged. -/
theorem applyOp_bound_size (w : Window) (op : WinOp) :
    (w.applyOp op).Bound.Size = w.Bound.Size := by
  cases op <;> rfl

/-- `MoveUp` by a non-negative distance keeps the origin invariant. -/
theorem moveUp_inv (w : Window) (n : Int) (hn : 0 ≤ n)
    (hw : w.Text ≠ []) (hinv : winInv w) : winInv (w.MoveUp n) := by
  have hlen : 0 < w.Text.length := List.length_pos.mpr hw
  obtain ⟨h1, h2, h3⟩ := hinv
  unfold Window.MoveUp winInv
  refine ⟨?_, ?_, h3⟩ <;> simp only [] <;> split <;> omega

/-- `MoveDown` by a non-negative distance keeps the origin invariant,
for a non-empty text. -/
theorem moveDown_inv (w : Window) (n : Int) (hn : 0 ≤ n)
    (hw : w.Text ≠ []) (hinv : winInv w) : winInv (w.MoveDown n) := by
  have hlen : 0 < w.Text.length := List.length_pos.mpr hw
  obtain ⟨h1, h2, h3⟩ := hinv
  unfold Window.MoveDown winInv
  refine ⟨?_, ?_, h3⟩ <;> simp only [] <;> split <;> omega

/-- `MoveLeft` by a non-negative distance keeps the origin invariant. -/
theorem moveLeft_inv (w : Window) (n : Int) (_hn : 0 ≤ n)
    (hinv : winInv w) : winInv (w.MoveLeft n) := by
  obtain ⟨h1, h2, h3⟩ := hinv
  unfold Window.MoveLeft winInv
  refine ⟨h1, h2, ?_⟩
  simp only []
  split <;> omega

/-- `MoveRight` by a non-negative distance keeps the origin invariant. -/
theorem moveRight_inv (w : Window) (n : Int) (hn : 0 ≤ n)
    (hinv : winInv w) : winInv (w.MoveRight n) := by
  obtain ⟨h1, h2, h3⟩ := hinv
  unfold Window.MoveRight winInv
  exact ⟨h1, h2, by simp only []; omega⟩

/-- One valid Window operation preserves the origin invariant and text
non-emptiness, given a non-negative viewport height. -/
theorem applyOp_inv (w : Window) (op : WinOp) (hop : op.resetNonempty)
    (hw : w.Text ≠ []) (hsz : 0 ≤ w.Bound.Size.L) (hinv : winInv w) :
    winInv (w.applyOp op) ∧ (w.applyOp op).Text ≠ [] := by
  have htdiv : 0 ≤ Int.tdiv w.Bound.Size.L 2 := Int.tdiv_nonneg hsz (by norm_num)
  cases op with
  | reset t =>
    refine ⟨⟨le_refl 0, ?_, le_refl 0⟩, hop⟩
    have : 0 < t.length := List.length_pos.mpr hop
    show (0 : Int) ≤ (t.length : Int) - 1
    omega
  | moveUp n => exact ⟨moveUp_inv w n (by positivity) hw hinv, hw⟩
  | moveDown n => exact ⟨moveDown_inv w n (by positivity) hw hinv, hw⟩
  | moveLeft n => exact ⟨moveLeft_inv w n (by positivity) hinv, hw⟩
  | moveRight n => exact ⟨moveRight_inv w n (by positivity) hinv, hw⟩
  | pageForward => exact ⟨moveDown_inv w _ hsz hw hinv, hw⟩
  | pageBackward => exact ⟨moveUp_inv w _ hsz hw hinv, hw⟩
  | halfPageForward => exact ⟨moveDown_inv w _ htdiv hw hinv, hw⟩
  | halfPageBackward => exact ⟨moveUp_inv w _ htdiv hw hinv, hw⟩

/-- Counterexample to C3 as stated: on the empty text body, `MoveDown 1`
(a non-negative argument) drives the scroll line to `-1`, outside
`[0, max(0, len(text)-1)] = [0, 0]`. -/
theorem window_moveDown_empty_text_counterexample :
    ((Window.Reset ⟨⟨⟨0, 0⟩, ⟨5, 5⟩⟩, [['a']]⟩ []).MoveDown 1).Bound.Min.L = -1 ∧
    ¬(0 ≤ ((Window.Reset ⟨⟨⟨0, 0⟩, ⟨5, 5⟩⟩, [['a']]⟩ []).MoveDown 1).Bound.Min.L) := by
  decide

/-- C3 amended: for every non-empty text body and every sequence of
Window operations with non-negative arguments (any text installed by a
`Reset` in the sequence also non-empty, viewport height non-negative),
the scroll origin satisfies `line ∈ [0, len(text)-1]` and `column ≥ 0`
after every operation, and `Reset` sets the origin to `(0,0)`. For the
empty text body the line bound fails (see the counterexample). -/
theorem window_origin_invariant (ops : List WinOp) (w : Window) (t : List (List Char))
    (hops : ∀ op ∈ ops, op.resetNonempty)
    (hw : w.Text ≠ []) (hsz : 0 ≤ w.Bound.Size.L) (hinv : winInv w) :
    winInv (ops.foldl Window.applyOp w) ∧ (Window.Reset w t).Bound.Min = ⟨0, 0⟩ := by
  refine ⟨?_, rfl⟩
  induction ops generalizing w with
  | nil => exact hinv
  | cons op rest ih =>
    have h1 := applyOp_inv w op (hops op (List.mem_cons_self op rest)) hw hsz hinv
    have hsz' : 0 ≤ (w.applyOp op).Bound.Size.L := by
      rw [applyOp_bound_size]
      exact hsz
    exact ih (w.applyOp op) (fun o ho => hops o (List.mem_cons_of_mem op ho)) h1.2 hsz' h1.1

/-- Witness for C3's amended statement: a two-line reset followed by a
large clamped move and page moves. -/
theorem window_origin_invariant_witness :
    ((⟨⟨⟨0, 0⟩, ⟨2, 4⟩⟩, [['x']]⟩ : Window).Text ≠ [] ∧
      (0 : Int) ≤ (⟨⟨⟨0, 0⟩, ⟨2, 4⟩⟩, [['x']]⟩ : Window).Bound.Size.L) ∧
    (winInv ([WinOp.reset [['a'], ['b']], WinOp.moveDown 5, WinOp.moveRight 3,
        WinOp.pageForward].foldl Window.applyOp ⟨⟨⟨0, 0⟩, ⟨2, 4⟩⟩, [['x']]⟩) ∧
      (Window.Reset ⟨⟨⟨0, 0⟩, ⟨2, 4⟩⟩, [['x']]⟩ [['q']]).Bound.Min = ⟨0, 0⟩) :=
  ⟨⟨by decide, by decide⟩,
    window_origin_invariant
      [WinOp.reset [['a'], ['b']], WinOp.moveDown 5, WinOp.moveRight 3, WinOp.pageForward]
      ⟨⟨⟨0, 0⟩, ⟨2, 4⟩⟩, [['x']]⟩ [['q']]
      (by decide) (by decide) (by decide) (by decide)⟩

/-- The validation step sends any raw index into `[0, len-1]` for a
non-empty list. -/
theorem clampCur_bounds (commits : List Commit) (x : Int) (hne : commits ≠ []) :
    0 ≤ clampCur commits x ∧ clampCur commits x ≤ (commits.length : Int) - 1 := by
  have hlen : 0 < commits.length := List.length_pos.mpr hne
  unfold clampCur
  simp only []
  split <;> split <;> omega

/-- A selection step does not change the area's rectangle. -/
theorem step_bound (commits : List Commit) (a : CommitArea) (ev : ListEv) :
    (CommitArea.step commits a ev).Bound = a.Bound := by
  unfold CommitArea.step CommitArea.drawTop CommitArea.handle
  split
  · rfl
  · split <;> rfl

/-- One selection step establishes the List Area invariant from a
non-negative top index. -/
theorem step_inv (commits : List Commit) (a : CommitArea) (ev : ListEv)
    (hne : commits ≠ []) (hh : 1 ≤ a.Bound.Size.L) (htop : 0 ≤ a.TopIdx) :
    listInv (CommitArea.step commits a ev) := by
  have hcur := clampCur_bounds commits (a.rawCur commits ev) hne
  unfold CommitArea.step CommitArea.drawTop CommitArea.handle listInv
  simp only []
  split
  · next h => simp only []; omega
  · split
    · next h => simp only []; omega
    · next h h' => simp only []; omega

/-- C4: for every viewport height `h ≥ 1` and non-empty commit list,
after any (non-empty) sequence of selection-movement events — each
event being the index update, clamping, and top-index recomputation —
`0 ≤ TopIdx ≤ CurIdx ≤ TopIdx + h - 1` holds, starting from any state
with a non-negative top index (the program starts at `TopIdx = 0`). -/
theorem commitArea_selection_invariant (evs : List ListEv) (commits : List Commit)
    (a : CommitArea) (hne : commits ≠ []) (hh : 1 ≤ a.Bound.Size.L)
    (htop : 0 ≤ a.TopIdx) (hevs : evs ≠ []) :
    listInv (evs.foldl (CommitArea.step commits) a) := by
  induction evs generalizing a with
  | nil => exact absurd rfl hevs
  | cons ev rest ih =>
    have h1 := step_inv commits a ev hne hh htop
    rcases rest with _ | ⟨ev2, rest2⟩
    · simpa using h1
    · have hb := step_bound commits a ev
      have hh' : 1 ≤ (CommitArea.step commits a ev).Bound.Size.L := by
        rw [hb]
        exact hh
      have := ih (CommitArea.step commits a ev) hh' h1.1 (by simp)
      simpa using this

/-- Witness for C4: two commits, viewport height 3, a single
down-move from the initial state. -/
theorem commitArea_selection_invariant_witness :
    ([⟨"h0", "a"⟩, ⟨"h1", "b"⟩] ≠ ([] : List Commit) ∧
      (1 : Int) ≤ (⟨⟨⟨0, 0⟩, ⟨3, 10⟩⟩, 0, 0⟩ : CommitArea).Bound.Size.L ∧
      (0 : Int) ≤ (⟨⟨⟨0, 0⟩, ⟨3, 10⟩⟩, 0, 0⟩ : CommitArea).TopIdx ∧
      [ListEv.down] ≠ []) ∧
    listInv ([ListEv.down].foldl
      (CommitArea.step [⟨"h0", "a"⟩, ⟨"h1", "b"⟩]) ⟨⟨⟨0, 0⟩, ⟨3, 10⟩⟩, 0, 0⟩) :=
  ⟨⟨by decide, by decide, by decide, by decide⟩,
    commitArea_selection_invariant [ListEv.down] [⟨"h0", "a"⟩, ⟨"h1", "b"⟩]
      ⟨⟨⟨0, 0⟩, ⟨3, 10⟩⟩, 0, 0⟩ (by decide) (by decide) (by decide) (by decide)⟩

/-- C7: `MoveDown n` then `MoveUp n` restores the scroll line, provided
neither move is clamped: the down move stays strictly below the line
count, and the up move's result is not below 0. -/
theorem moveDown_moveUp_roundtrip (w : Window) (n : Int) (_hn : 0 ≤ n)
    (hdown : ¬(w.Bound.Min.L + n ≥ (w.Text.length : Int)))
    (hup : ¬(w.Bound.Min.L + n - n < 0)) :
    ((w.MoveDown n).MoveUp n).Bound.Min.L = w.Bound.Min.L := by
  unfold Window.MoveDown Window.MoveUp
  simp only []
  split_ifs
  all_goals omega

/-- Witness for C7: three text lines, origin line 0, distance 1. -/
theorem moveDown_moveUp_roundtrip_witness :
    ((0 : Int) ≤ 1 ∧
      ¬((⟨⟨⟨0, 0⟩, ⟨2, 4⟩⟩, [['a'], ['b'], ['c']]⟩ : Window).Bound.Min.L + 1 ≥
        ((⟨⟨⟨0, 0⟩, ⟨2, 4⟩⟩, [['a'], ['b'], ['c']]⟩ : Window).Text.length : Int)) ∧
      ¬((⟨⟨⟨0, 0⟩, ⟨2, 4⟩⟩, [['a'], ['b'], ['c']]⟩ : Window).Bound.Min.L + 1 - 1 < 0)) ∧
    (((⟨⟨⟨0, 0⟩, ⟨2, 4⟩⟩, [['a'], ['b'], ['c']]⟩ : Window).MoveDown 1).MoveUp 1).Bound.Min.L =
      (⟨⟨⟨0, 0⟩, ⟨2, 4⟩⟩, [['a'], ['b'], ['c']]⟩ : Window).Bound.Min.L :=
  ⟨⟨by decide, by decide, by decide⟩,
    moveDown_moveUp_roundtrip ⟨⟨⟨0, 0⟩, ⟨2, 4⟩⟩, [['a'], ['b'], ['c']]⟩ 1
      (by decide) (by decide) (by decide)⟩

/-- For a line of width-1 code points, the rendering loop starting at
column `o` inside `[0, w]` writes `min (remaining length) (w - o)`
cells. -/
theorem drawLineLoop_single_width (w : Int) (line : List Char) :
    ∀ o : Int, (∀ c ∈ line, runeWidth c = 1) → 0 ≤ o → o ≤ w →
      ((drawLineLoop w o line).length : Int) = min (line.length : Int) (w - o) := by
  induction line with
  | nil =>
    intro o _ _ h2
    simp [drawLineLoop]
    omega
  | cons r rest ih =>
    intro o h1 h0 h2
    have hr : runeWidth r = 1 := h1 r (List.mem_cons_self r rest)
    by_cases how : o ≥ w
    · have : o = w := by omega
      simp [drawLineLoop, how]
      omega
    · have hrest : ∀ c ∈ rest, runeWidth c = 1 :=
        fun c hc => h1 c (List.mem_cons_of_mem r hc)
      have hrec := ih (o + (runeWidth r : Int)) hrest (by omega) (by rw [hr]; push_cast; omega)
      simp only [drawLineLoop, how, if_false, h0, if_true, ge_iff_le, not_le,
        List.length_append, List.length_cons, List.length_nil, hr]
      rw [hr] at hrec
      push_cast at hrec ⊢
      omega

/-- C8: rendering a line of single-width code points with horizontal
scroll offset 0 into a viewport of non-negative width `w` draws exactly
`min (length line) w` cells. -/
theorem draw_single_width_cell_count (line : List Char) (w : Int)
    (hsw : ∀ c ∈ line, runeWidth c = 1) (hw : 0 ≤ w) :
    ((drawLineLoop w 0 line).length : Int) = min (line.length : Int) w := by
  have := drawLineLoop_single_width w line 0 hsw (le_refl 0) hw
  rwa [sub_zero] at this

/-- Witness for C8: the three-character line `abc` in a width-2
viewport draws 2 cells. -/
theorem draw_single_width_cell_count_witness :
    ((0 : Int) ≤ 2) ∧
    ((drawLineLoop 2 0 ['a', 'b', 'c']).length : Int) = min ((['a', 'b', 'c'].length : Nat) : Int) 2 :=
  ⟨by decide, draw_single_width_cell_count ['a', 'b', 'c'] 2 (by decide) (by decide)⟩
